import Mathlib

/-!
Verification development for the Krypton_2K25 language-translator source
(`src/main.py`): a shallow embedding of the particle animation loop of
`ParticleCanvas` and of the background-task coordination of `TranslatorApp`
(worker threads, debounced auto-translate, bounded history log), together
with theorems settling the specified properties.

Modelling conventions: Python floats are modelled as rationals; every call
to the random generator is an explicit oracle argument, constrained exactly
as the generator guarantees (for example `random.randint(0, width)` yields
an integer in `[0, width]`).
-/

/-- The fixed five-entry neon palette `NEON_COLORS` of `main.py`. -/
def NEON_COLORS : List String :=
  ["#00f5ff", "#ff00e6", "#4dff6e", "#ff9a00", "#7a5cff"]

/-- One particle of `ParticleCanvas`: position, velocity, size, colour and
the canvas handle returned by `create_oval` (the dict built by
`_create_particle`, lines 38-49 of `main.py`). -/
structure Particle where
  x : ℚ
  y : ℚ
  dx : ℚ
  dy : ℚ
  size : ℕ
  color : String
  id : ℕ
  deriving DecidableEq, Repr

/-- One `_animate` update of a single particle (lines 80-91 of `main.py`):
advance the position by the velocity; if the advanced abscissa is at or
outside `[0, width]`, negate the horizontal velocity; if the advanced
ordinate is at or past `height`, wrap to ordinate `-size` at the fresh
random abscissa `r` (the `random.randint(0, width)` draw). -/
def animateParticle (width height r : ℚ) (p : Particle) : Particle :=
  if p.y + p.dy ≥ height then
    { p with
      x := r
      y := -(p.size : ℚ)
      dx := if p.x + p.dx ≤ 0 ∨ p.x + p.dx ≥ width then -p.dx else p.dx }
  else
    { p with
      x := p.x + p.dx
      y := p.y + p.dy
      dx := if p.x + p.dx ≤ 0 ∨ p.x + p.dx ≥ width then -p.dx else p.dx }

/-- `n` successive `_animate` ticks applied to one particle; `r i` is the
random abscissa the generator would produce at tick `i` if the wrap fires
there. -/
def animateIter (width height : ℚ) (r : ℕ → ℚ) : ℕ → Particle → Particle
  | 0, p => p
  | n + 1, p => animateIter width height r n (animateParticle width height (r n) p)

/-- C5: a particle whose abscissa after advancing by its velocity is at or
outside `[0, width]` has its horizontal velocity negated by the tick, and
its size, colour and vertical velocity are unaffected. -/
theorem bounce_negates_dx (width height r : ℚ) (p : Particle)
    (h : p.x + p.dx ≤ 0 ∨ p.x + p.dx ≥ width) :
    (animateParticle width height r p).dx = -p.dx ∧
    (animateParticle width height r p).size = p.size ∧
    (animateParticle width height r p).color = p.color ∧
    (animateParticle width height r p).dy = p.dy := by
  unfold animateParticle
  split <;> simp [if_pos h]

/-- Witness for C5, the scenario of the spec: a particle at `x = width`
with `dx = +1` (here `width = 10`) triggers the bounce and ends the tick
with `dx = -1`, size, colour and vertical velocity intact. -/
theorem bounce_negates_dx_witness :
    ((10 : ℚ) + 1 ≤ 0 ∨ (10 : ℚ) + 1 ≥ 10) ∧
    ((animateParticle 10 100 0 ⟨10, 3, 1, 1, 6, "#00f5ff", 0⟩).dx = -1 ∧
      (animateParticle 10 100 0 ⟨10, 3, 1, 1, 6, "#00f5ff", 0⟩).size = 6 ∧
      (animateParticle 10 100 0 ⟨10, 3, 1, 1, 6, "#00f5ff", 0⟩).color = "#00f5ff" ∧
      (animateParticle 10 100 0 ⟨10, 3, 1, 1, 6, "#00f5ff", 0⟩).dy = 1) :=
  ⟨by norm_num,
    bounce_negates_dx 10 100 0 ⟨10, 3, 1, 1, 6, "#00f5ff", 0⟩ (by norm_num)⟩

/-- C4 counterexample input: a particle that passes the bottom and hits the
right wall in the same tick; the bounce (lines 84-85 of `main.py`) runs
before the wrap (lines 87-89), so the wrapped particle leaves the tick with
its horizontal velocity negated, not unchanged. -/
theorem wrap_velocity_counterexample :
    (9 : ℚ) + 3/2 > 10 ∧
    (animateParticle 10 10 5 ⟨9, 9, 1, 3/2, 6, "#00f5ff", 0⟩).dx ≠
      (⟨9, 9, 1, 3/2, 6, "#00f5ff", 0⟩ : Particle).dx := by
  constructor
  · norm_num
  · norm_num [animateParticle]

/-- C4 amended: a particle whose advanced ordinate is at or past `height`
is teleported to the random abscissa `r` (which the generator keeps in
`[0, width]`) at ordinate `-size`; its size, colour and vertical velocity
are unchanged, and its horizontal velocity is unchanged unless the advanced
abscissa also left `[0, width]` in the same tick, in which case the bounce
negates it. -/
theorem wrap_teleports (width height r : ℚ) (p : Particle)
    (hy : p.y + p.dy ≥ height) (hr0 : 0 ≤ r) (hr1 : r ≤ width) :
    (animateParticle width height r p).x = r ∧
    0 ≤ (animateParticle width height r p).x ∧
    (animateParticle width height r p).x ≤ width ∧
    (animateParticle width height r p).y = -(p.size : ℚ) ∧
    (animateParticle width height r p).size = p.size ∧
    (animateParticle width height r p).color = p.color ∧
    (animateParticle width height r p).dy = p.dy ∧
    (animateParticle width height r p).dx =
      (if p.x + p.dx ≤ 0 ∨ p.x + p.dx ≥ width then -p.dx else p.dx) := by
  unfold animateParticle
  rw [if_pos hy]
  exact ⟨rfl, hr0, hr1, rfl, rfl, rfl, rfl, rfl⟩

/-- Witness for the amended C4: a particle at `(2, 9)` with velocity
`(1/2, 3/2)` in a `10 times 10` viewport passes the bottom and is wrapped
to the drawn abscissa `5` at ordinate `-6`. -/
theorem wrap_teleports_witness :
    ((9 : ℚ) + 3/2 ≥ 10 ∧ (0 : ℚ) ≤ 5 ∧ (5 : ℚ) ≤ 10) ∧
    ((animateParticle 10 10 5 ⟨2, 9, 1/2, 3/2, 6, "#ff00e6", 1⟩).x = 5 ∧
      0 ≤ (animateParticle 10 10 5 ⟨2, 9, 1/2, 3/2, 6, "#ff00e6", 1⟩).x ∧
      (animateParticle 10 10 5 ⟨2, 9, 1/2, 3/2, 6, "#ff00e6", 1⟩).x ≤ 10 ∧
      (animateParticle 10 10 5 ⟨2, 9, 1/2, 3/2, 6, "#ff00e6", 1⟩).y = -((6 : ℕ) : ℚ) ∧
      (animateParticle 10 10 5 ⟨2, 9, 1/2, 3/2, 6, "#ff00e6", 1⟩).size = 6 ∧
      (animateParticle 10 10 5 ⟨2, 9, 1/2, 3/2, 6, "#ff00e6", 1⟩).color = "#ff00e6" ∧
      (animateParticle 10 10 5 ⟨2, 9, 1/2, 3/2, 6, "#ff00e6", 1⟩).dy = 3/2 ∧
      (animateParticle 10 10 5 ⟨2, 9, 1/2, 3/2, 6, "#ff00e6", 1⟩).dx =
        (if (2 : ℚ) + 1/2 ≤ 0 ∨ (2 : ℚ) + 1/2 ≥ 10 then -(1/2 : ℚ) else 1/2)) :=
  ⟨by norm_num,
    wrap_teleports 10 10 5 ⟨2, 9, 1/2, 3/2, 6, "#ff00e6", 1⟩
      (by norm_num) (by norm_num) (by norm_num)⟩

/-- C2 counterexample input: in a `width = 10`, `height = 100` viewport the
claimed horizontal range `[0, width]` is left after one tick by a particle
starting at the right edge with `dx = 1`: the bounce negates the velocity
but does not clamp the advanced position, which ends at `11`. -/
theorem tick_bounds_counterexample :
    ((0 : ℚ) ≤ 10 ∧ (10 : ℚ) ≤ 10 ∧ -(50 : ℚ) ≤ 0 ∧ (0 : ℚ) ≤ 100) ∧
    ¬ ((animateIter 10 100 (fun _ => 0) 1 ⟨10, 0, 1, 1, 6, "#00f5ff", 0⟩).x ≤ 10) := by
  constructor
  · norm_num
  · norm_num [animateIter, animateParticle]

/-- Inductive state invariant of one particle under `_animate`: the
horizontal speed is bounded by `b`, the abscissa stays in the widened band
`[-b, width + b]` (with a one-step lookahead clause on each side of the
viewport), the vertical speed is nonnegative, the size is bounded by `m`,
and the ordinate stays in `[-m, height]`. -/
def ParticleInv (width height b : ℚ) (m : ℕ) (p : Particle) : Prop :=
  |p.dx| ≤ b ∧
  -b ≤ p.x ∧ p.x ≤ width + b ∧
  (width < p.x → p.x + p.dx ≤ width + b) ∧
  (p.x < 0 → -b ≤ p.x + p.dx) ∧
  0 ≤ p.dy ∧ p.size ≤ m ∧
  -(m : ℚ) ≤ p.y ∧ p.y ≤ height

/-- One `_animate` tick preserves the particle invariant, provided the
random abscissa drawn on a wrap lies in `[0, width]`. -/
theorem particleInv_step (width height b r : ℚ) (m : ℕ) (p : Particle)
    (hh : 0 ≤ height) (hr0 : 0 ≤ r) (hr1 : r ≤ width)
    (hp : ParticleInv width height b m p) :
    ParticleInv width height b m (animateParticle width height r p) := by
  obtain ⟨hdx, hx0, hx1, hxh, hxl, hdy, hsz, hy0, hy1⟩ := hp
  have hb : 0 ≤ b := le_trans (abs_nonneg _) hdx
  have hdxu : p.dx ≤ b := (abs_le.mp hdx).2
  have hdxl : -b ≤ p.dx := (abs_le.mp hdx).1
  have hszq : ((p.size : ℚ)) ≤ (m : ℚ) := by exact_mod_cast hsz
  have habs : |if p.x + p.dx ≤ 0 ∨ p.x + p.dx ≥ width then -p.dx else p.dx| ≤ b := by
    split
    · rw [abs_neg]; exact hdx
    · exact hdx
  unfold animateParticle
  split
  case isTrue hw =>
    refine ⟨habs, ?_, ?_, ?_, ?_, hdy, hsz, ?_, ?_⟩
    · dsimp only; linarith
    · dsimp only; linarith
    · dsimp only; intro h; linarith
    · dsimp only; intro h; linarith
    · dsimp only; linarith
    · dsimp only
      have : (0 : ℚ) ≤ (p.size : ℚ) := Nat.cast_nonneg _
      linarith
  case isFalse hw =>
    have hw' : p.y + p.dy < height := lt_of_not_ge hw
    have hub : p.x + p.dx ≤ width + b := by
      rcases le_or_lt p.x width with hc | hc
      · linarith
      · exact hxh hc
    have hlb : -b ≤ p.x + p.dx := by
      rcases le_or_lt 0 p.x with hc | hc
      · linarith
      · exact hxl hc
    refine ⟨habs, ?_, ?_, ?_, ?_, hdy, hsz, ?_, ?_⟩
    · exact hlb
    · exact hub
    · dsimp only
      intro h
      rw [if_pos (Or.inr (le_of_lt h))]
      linarith
    · dsimp only
      intro h
      rw [if_pos (Or.inl (le_of_lt h))]
      linarith
    · dsimp only; linarith
    · dsimp only; linarith

/-- Any number of `_animate` ticks preserves the particle invariant when
every random abscissa the generator can draw lies in `[0, width]`. -/
theorem particleInv_iter (width height b : ℚ) (m : ℕ) (r : ℕ → ℚ)
    (hh : 0 ≤ height) (hr : ∀ i, 0 ≤ r i ∧ r i ≤ width) :
    ∀ (n : ℕ) (p : Particle), ParticleInv width height b m p →
      ParticleInv width height b m (animateIter width height r n p) := by
  intro n
  induction n with
  | zero => intro p hp; exact hp
  | succ k ih =>
      intro p hp
      exact ih _ (particleInv_step width height b (r k) m p hh (hr k).1 (hr k).2 hp)

/-- C2 amended: starting from `x` in `[0, width]` and `y` in `[-m, height]`,
after any number of ticks the abscissa stays in the widened band
`[-b, width + b]` for any bound `b` on the horizontal speed (`1.5` in the
code) and the ordinate stays in `[-m, height]` for any bound `m` on the
size (`50` in the code). -/
theorem tick_bounds_amended (width height b : ℚ) (m : ℕ) (r : ℕ → ℚ)
    (p : Particle) (n : ℕ)
    (hh : 0 ≤ height) (hr : ∀ i, 0 ≤ r i ∧ r i ≤ width)
    (hdx : |p.dx| ≤ b) (hdy : 0 ≤ p.dy) (hsz : p.size ≤ m)
    (hx0 : 0 ≤ p.x) (hx1 : p.x ≤ width)
    (hy0 : -(m : ℚ) ≤ p.y) (hy1 : p.y ≤ height) :
    -b ≤ (animateIter width height r n p).x ∧
    (animateIter width height r n p).x ≤ width + b ∧
    -(m : ℚ) ≤ (animateIter width height r n p).y ∧
    (animateIter width height r n p).y ≤ height := by
  have hb : 0 ≤ b := le_trans (abs_nonneg _) hdx
  have hinv : ParticleInv width height b m p := by
    refine ⟨hdx, by linarith, by linarith, ?_, ?_, hdy, hsz, hy0, hy1⟩
    · intro h; linarith
    · intro h; linarith
  obtain ⟨_, h1, h2, _, _, _, _, h3, h4⟩ :=
    particleInv_iter width height b m r hh hr n p hinv
  exact ⟨h1, h2, h3, h4⟩

/-- Witness for the amended C2: a particle at `(5, 0)` with velocity
`(1, 1)` in a `10 times 10` viewport, size bound `50`, speed bound `3/2`,
iterated for `4` ticks. -/
theorem tick_bounds_amended_witness :
    ((0 : ℚ) ≤ 10 ∧ (∀ i : ℕ, 0 ≤ (fun _ : ℕ => (0 : ℚ)) i ∧
        (fun _ : ℕ => (0 : ℚ)) i ≤ 10) ∧
      |(1 : ℚ)| ≤ 3/2 ∧ (0 : ℚ) ≤ 1 ∧ (6 : ℕ) ≤ 50 ∧
      (0 : ℚ) ≤ 5 ∧ (5 : ℚ) ≤ 10 ∧ -((50 : ℕ) : ℚ) ≤ 0 ∧ (0 : ℚ) ≤ 10) ∧
    (-(3/2 : ℚ) ≤ (animateIter 10 10 (fun _ => 0) 4 ⟨5, 0, 1, 1, 6, "#4dff6e", 2⟩).x ∧
      (animateIter 10 10 (fun _ => 0) 4 ⟨5, 0, 1, 1, 6, "#4dff6e", 2⟩).x ≤ 10 + 3/2 ∧
      -((50 : ℕ) : ℚ) ≤ (animateIter 10 10 (fun _ => 0) 4 ⟨5, 0, 1, 1, 6, "#4dff6e", 2⟩).y ∧
      (animateIter 10 10 (fun _ => 0) 4 ⟨5, 0, 1, 1, 6, "#4dff6e", 2⟩).y ≤ 10) :=
  ⟨⟨by norm_num, fun i => ⟨le_refl 0, by norm_num⟩, by norm_num, by norm_num,
      by norm_num, by norm_num, by norm_num, by norm_num, by norm_num⟩,
    tick_bounds_amended 10 10 (3/2) 50 (fun _ => 0) ⟨5, 0, 1, 1, 6, "#4dff6e", 2⟩ 4
      (by norm_num) (fun i => ⟨le_refl 0, by norm_num⟩) (by norm_num)
      (by norm_num) (by norm_num) (by norm_num) (by norm_num) (by norm_num)
      (by norm_num)⟩

/-- The growing `while` loop of `set_particle_count` (lines 99-107 of
`main.py`): append `k` freshly created particles one at a time; `mk i`
is the particle `_create_particle` plus the random placement would build
when the collection has length `i`. -/
def growParticles (mk : ℕ → Particle) : ℕ → List Particle → List Particle
  | 0, ps => ps
  | k + 1, ps => growParticles mk k (ps ++ [mk ps.length])

/-- The shrinking `while` loop of `set_particle_count` (lines 108-111 of
`main.py`): pop `k` particles from the end of the collection, deleting
their canvas handles. -/
def shrinkParticles : ℕ → List Particle → List Particle
  | 0, ps => ps
  | k + 1, ps => shrinkParticles k ps.dropLast

/-- `ParticleCanvas.set_particle_count` (lines 94-111 of `main.py`): clamp
the requested count to `[5, 150]`, then grow by appending new particles or
shrink by popping from the end until the collection has the clamped size. -/
def set_particle_count (mk : ℕ → Particle) (n : ℤ) (ps : List Particle) :
    List Particle :=
  if ps.length < (max 5 (min n 150)).toNat then
    growParticles mk ((max 5 (min n 150)).toNat - ps.length) ps
  else
    shrinkParticles (ps.length - (max 5 (min n 150)).toNat) ps

theorem growParticles_length (mk : ℕ → Particle) :
    ∀ (k : ℕ) (ps : List Particle),
      (growParticles mk k ps).length = ps.length + k := by
  intro k
  induction k with
  | zero => intro ps; rfl
  | succ j ih =>
      intro ps
      rw [growParticles, ih]
      simp
      omega

theorem shrinkParticles_length :
    ∀ (k : ℕ) (ps : List Particle),
      (shrinkParticles k ps).length = ps.length - k := by
  intro k
  induction k with
  | zero => intro ps; rfl
  | succ j ih =>
      intro ps
      rw [shrinkParticles, ih]
      simp [List.length_dropLast]
      omega

theorem set_particle_count_length (mk : ℕ → Particle) (n : ℤ)
    (ps : List Particle) :
    (set_particle_count mk n ps).length = (max 5 (min n 150)).toNat := by
  unfold set_particle_count
  split
  case isTrue h => rw [growParticles_length]; omega
  case isFalse h => rw [shrinkParticles_length]; omega

/-- C3: after a single `set_particle_count n` call the field holds exactly
`clamp(n, 5, 150)` particles; in particular for `n` in `[5, 150]` it holds
exactly `n`. -/
theorem set_particle_count_exact (mk : ℕ → Particle) (n : ℤ)
    (ps : List Particle) :
    (set_particle_count mk n ps).length = (max 5 (min n 150)).toNat :=
  set_particle_count_length mk n ps

/-- C6: `set_particle_count` is idempotent; an immediate second call with
the same count (with any fresh-particle oracle) returns the particle list
of the first call unchanged, creating and removing nothing. -/
theorem set_particle_count_idempotent (mk1 mk2 : ℕ → Particle) (n : ℤ)
    (ps : List Particle) :
    set_particle_count mk2 n (set_particle_count mk1 n ps) =
      set_particle_count mk1 n ps := by
  have hlen := set_particle_count_length mk1 n ps
  generalize hq : set_particle_count mk1 n ps = qs at hlen ⊢
  unfold set_particle_count
  rw [hlen, if_neg (lt_irrefl _), Nat.sub_self]
  rfl

/-- The body of the `for` loop of `_scatter_particles` (lines 62-65 of
`main.py`) applied from index `i` on: each particle receives the fresh
random position `(rx j, ry j)` drawn for it. -/
def scatterAux (rx ry : ℕ → ℚ) : ℕ → List Particle → List Particle
  | _, [] => []
  | i, p :: ps => { p with x := rx i, y := ry i } :: scatterAux rx ry (i + 1) ps

/-- `ParticleCanvas._scatter_particles` (lines 59-65 of `main.py`), the body
of the resize handler: a no-op while either dimension is at most `1`,
otherwise every particle is moved to a fresh random position; `rx i` and
`ry i` are the `random.randint(0, width)` and `random.randint(0, height)`
draws for the `i`-th particle. -/
def scatter_particles (rx ry : ℕ → ℚ) (width height : ℤ)
    (ps : List Particle) : List Particle :=
  if width ≤ 1 ∨ height ≤ 1 then ps
  else scatterAux rx ry 0 ps

theorem scatterAux_bounds (rx ry : ℕ → ℚ) (w h : ℤ)
    (hrx : ∀ i, 0 ≤ rx i ∧ rx i ≤ (w : ℚ))
    (hry : ∀ i, 0 ≤ ry i ∧ ry i ≤ (h : ℚ)) :
    ∀ (i : ℕ) (ps : List Particle) (q : Particle),
      q ∈ scatterAux rx ry i ps →
        0 ≤ q.x ∧ q.x ≤ (w : ℚ) ∧ 0 ≤ q.y ∧ q.y ≤ (h : ℚ) := by
  intro i ps
  induction ps generalizing i with
  | nil => intro q hq; simp [scatterAux] at hq
  | cons p ps ih =>
      intro q hq
      rw [scatterAux] at hq
      rcases List.mem_cons.mp hq with hq | hq
      · subst hq
        exact ⟨(hrx i).1, (hrx i).2, (hry i).1, (hry i).2⟩
      · exact ih (i + 1) q hq

theorem scatterAux_length (rx ry : ℕ → ℚ) :
    ∀ (i : ℕ) (ps : List Particle),
      (scatterAux rx ry i ps).length = ps.length := by
  intro i ps
  induction ps generalizing i with
  | nil => rfl
  | cons p ps ih => rw [scatterAux]; simp [ih]

/-- C7: a resize to a viewport with either dimension at most `1` leaves
the particle list untouched (every field of every particle included); a
resize to a larger viewport keeps the particle count and places every
particle at a random position inside the new bounds. -/
theorem scatter_particles_spec (rx ry : ℕ → ℚ) (w h : ℤ)
    (ps : List Particle)
    (hrx : ∀ i, 0 ≤ rx i ∧ rx i ≤ (w : ℚ))
    (hry : ∀ i, 0 ≤ ry i ∧ ry i ≤ (h : ℚ)) :
    (w ≤ 1 ∨ h ≤ 1 → scatter_particles rx ry w h ps = ps) ∧
    (scatter_particles rx ry w h ps).length = ps.length ∧
    (1 < w → 1 < h → ∀ q ∈ scatter_particles rx ry w h ps,
      0 ≤ q.x ∧ q.x ≤ (w : ℚ) ∧ 0 ≤ q.y ∧ q.y ≤ (h : ℚ)) := by
  refine ⟨?_, ?_, ?_⟩
  · intro hsmall
    unfold scatter_particles
    rw [if_pos hsmall]
  · unfold scatter_particles
    split
    · rfl
    · exact scatterAux_length rx ry 0 ps
  · intro hw hh q hq
    unfold scatter_particles at hq
    rw [if_neg (by push_neg; exact ⟨hw, hh⟩)] at hq
    exact scatterAux_bounds rx ry w h hrx hry 0 ps q hq

/-- Witness for C7: the no-op branch at `w = 1` and the scatter branch at
`w = 5, h = 4` on a one-particle list with all draws equal to `1`. -/
theorem scatter_particles_spec_witness :
    (∀ i : ℕ, 0 ≤ (fun _ : ℕ => (1 : ℚ)) i ∧ (fun _ : ℕ => (1 : ℚ)) i ≤ ((5 : ℤ) : ℚ)) ∧
    ((5 : ℤ) ≤ 1 ∨ (4 : ℤ) ≤ 1 →
        scatter_particles (fun _ => 1) (fun _ => 1) 5 4 [⟨2, 3, 1, 1, 6, "#ff9a00", 3⟩] =
          [⟨2, 3, 1, 1, 6, "#ff9a00", 3⟩]) ∧
    (scatter_particles (fun _ => 1) (fun _ => 1) 5 4
        [⟨2, 3, 1, 1, 6, "#ff9a00", 3⟩]).length =
      [(⟨2, 3, 1, 1, 6, "#ff9a00", 3⟩ : Particle)].length ∧
    ((1 : ℤ) < 5 → (1 : ℤ) < 4 →
      ∀ q ∈ scatter_particles (fun _ => 1) (fun _ => 1) 5 4
          [⟨2, 3, 1, 1, 6, "#ff9a00", 3⟩],
        0 ≤ q.x ∧ q.x ≤ ((5 : ℤ) : ℚ) ∧ 0 ≤ q.y ∧ q.y ≤ ((4 : ℤ) : ℚ)) :=
  ⟨fun i => ⟨by norm_num, by norm_num⟩,
    scatter_particles_spec (fun _ => 1) (fun _ => 1) 5 4
      [⟨2, 3, 1, 1, 6, "#ff9a00", 3⟩]
      (fun i => ⟨by norm_num, by norm_num⟩)
      (fun i => ⟨by norm_num, by norm_num⟩)⟩

/-- One entry of the translation history: source preview, translation
preview, detected language name, target language name. -/
structure HistoryEntry where
  src : String
  dest : String
  detected : String
  target : String
  deriving DecidableEq, Repr

/-- The preview truncation of `_record_history` (lines 631-632 of
`main.py`): texts longer than `120` characters are cut and suffixed with
an ellipsis. -/
def previewOf (s : String) : String :=
  if 120 < s.length then s.take 120 ++ "…" else s

/-- The `deque(maxlen=10)` append performed by `_record_history` (line 633
of `main.py`, deque built at line 134): when the log is full the oldest
entry is dropped from the front. -/
def recordHistory (hist : List HistoryEntry) (e : HistoryEntry) :
    List HistoryEntry :=
  if hist.length < 10 then hist ++ [e] else hist.drop 1 ++ [e]

/-- `TranslatorApp._record_history` (lines 630-633 of `main.py`). -/
def record_history (hist : List HistoryEntry)
    (source translation detected target : String) : List HistoryEntry :=
  recordHistory hist ⟨previewOf source, previewOf translation, detected, target⟩

theorem recordHistory_foldl (es : List HistoryEntry) :
    ∀ (acc : List HistoryEntry), acc.length ≤ 10 →
      es.foldl recordHistory acc =
        (acc ++ es).drop (acc.length + es.length - 10) := by
  induction es with
  | nil =>
      intro acc hacc
      simp [Nat.sub_eq_zero_of_le hacc]
  | cons e es ih =>
      intro acc hacc
      rw [List.foldl_cons]
      rcases lt_or_eq_of_le hacc with hlt | heq
      · have hstep : recordHistory acc e = acc ++ [e] := if_pos hlt
        rw [hstep, ih (acc ++ [e]) (by simp; omega)]
        have hlist : acc ++ [e] ++ es = acc ++ e :: es := by simp
        rw [hlist]
        congr 1
        simp
        omega
      · have hfull : ¬ acc.length < 10 := by omega
        have hstep : recordHistory acc e = acc.drop 1 ++ [e] := if_neg hfull
        have hlen : (acc.drop 1 ++ [e]).length = 10 := by
          simp [List.length_drop]
          omega
        rw [hstep, ih (acc.drop 1 ++ [e]) (le_of_eq hlen)]
        rw [hlen]
        have hone : (1 : ℕ) ≤ acc.length := by omega
        have hc1 : (10 : ℕ) + es.length - 10 = es.length := by omega
        have hc2 : acc.length + (e :: es).length - 10 = 1 + es.length := by
          simp only [List.length_cons]
          omega
        rw [hc1, hc2, ← List.drop_drop, List.drop_append_of_le_length hone,
          List.append_assoc, List.singleton_append]

/-- C8: starting from the empty log, after any sequence of appends the
history holds at most `10` entries, and it is exactly the suffix of the
last (up to) `10` appended entries in append order: the oldest entry is
evicted first and the order of the rest is preserved. -/
theorem history_bounded (es : List HistoryEntry) :
    (es.foldl recordHistory []).length ≤ 10 ∧
    es.foldl recordHistory [] = es.drop (es.length - 10) := by
  have h := recordHistory_foldl es [] (by simp)
  simp at h
  refine ⟨?_, h⟩
  rw [h, List.length_drop]
  omega

/-- The outcome of a `root.after(0, ...)` callback when the UI thread
finally invokes it: the success continuation applied to the operation
result, the failure continuation applied to the exception value, or a
`NameError` raised inside the callback itself, delivering nothing to
either continuation. -/
inductive UICallback (E A : Type) where
  | success : A → UICallback E A
  | failure : E → UICallback E A
  | raisesNameError : UICallback E A
  deriving DecidableEq, Repr

/-- The closure cell of the `except ... as exc` target as the UI thread
sees it. A scheduled lambda captures the variable `exc`, not its value,
and CPython compiles `except Exception as exc: BLOCK` with an implicit
`exc = None` followed by deletion of `exc` that runs when the clause
exits, even through a `return`; the worker thread therefore clears the
cell before the `after(0, ...)` callback can run, so the cell is always
empty at invoke time. -/
def excCellAfterExcept (E : Type) : Option E := none

/-- Invoke-time behaviour of a failure lambda that reads the `exc` cell
(`lambda: self._handle_error(exc)` at line 439 of `main.py`, and the
lambda whose f-string interpolates `exc` at line 475): with the cell
still populated it would call the failure continuation on the exception
value; with the cell cleared it raises `NameError` instead. -/
def failureCallbackAtInvoke (E A : Type) (cell : Option E) : UICallback E A :=
  match cell with
  | some exc => .failure exc
  | none => .raisesNameError

/-- `TranslatorApp._translate_worker` (lines 435-441 of `main.py`): the
blocking call `translator.translate` either returns a result or raises an
exception (`op : Except E A`). On an exception the worker schedules
`lambda: self._handle_error(exc)` with `root.after(0, ...)` and returns;
the lambda reads the `exc` cell only when the UI thread runs it, after
the implicit deletion has cleared it. On a result it schedules
`lambda: self._apply_translation(result)`, whose captured local `result`
survives. The value is the list of invoke-time outcomes of the callbacks
the worker schedules; the worker itself raises nothing. -/
def translate_worker (E A : Type) (op : Except E A) : List (UICallback E A) :=
  match op with
  | .error _exc => [failureCallbackAtInvoke E A (excCellAfterExcept E)]
  | .ok result => [.success result]

/-- `TranslatorApp._speak_worker` (lines 470-477 of `main.py`): identical
control shape; the success callback is a plain `set_status` update, and
the failure lambda interpolates the cleared `exc` cell at invoke time,
so it too raises `NameError` instead of reporting the failure. -/
def speak_worker (E : Type) (say : Except E Unit) : List (UICallback E Unit) :=
  match say with
  | .error _exc => [failureCallbackAtInvoke E Unit (excCellAfterExcept E)]
  | .ok _ => [.success ()]

/-- C1: the claim fails on the code. On the error path each worker
schedules exactly one callback, but invoking it raises `NameError`,
because the implicit deletion at the end of `except ... as exc` cleared
the cell the lambda captured; the failure continuation never receives the
exception value. On the success path the success callback is delivered
exactly once with the operation's return value. -/
theorem worker_error_path_raises (E A : Type) (exc : E) (result : A) :
    translate_worker E A (Except.error exc) = [UICallback.raisesNameError] ∧
    speak_worker E (Except.error exc) = [UICallback.raisesNameError] ∧
    translate_worker E A (Except.ok result) = [UICallback.success result] ∧
    speak_worker E (Except.ok ()) = [UICallback.success ()] :=
  ⟨rfl, rfl, rfl, rfl⟩

/-- State of the UI-thread scheduler as the debounce logic sees it:
`typingJob` is the handle stored in `self.typing_job` (the fire time of
the `after` callback it names), `queue` holds the fire times of all live
scheduled callbacks in the tk event loop, and `fired` lists the times at
which `translate` actually ran. -/
structure SchedState where
  typingJob : Option ℚ
  queue : List ℚ
  fired : List ℚ
  deriving DecidableEq, Repr

/-- Fire times due by `limit`: the prefix of the queue that the event loop
runs before time `limit`, and the remaining queue. -/
def fireDue (limit : ℚ) : List ℚ → List ℚ × List ℚ
  | [] => ([], [])
  | t :: q =>
      if t ≤ limit then (t :: (fireDue limit q).1, (fireDue limit q).2)
      else ([], t :: q)

/-- Run every scheduled callback due by `limit`: each one is
`self.translate`, which records a firing and ends with
`self.typing_job = None` (line 433 of `main.py`), so if anything fired the
stored handle is cleared. -/
def fireAllDue (limit : ℚ) (s : SchedState) : SchedState :=
  { typingJob := if (fireDue limit s.queue).1.isEmpty then s.typingJob else none
    queue := (fireDue limit s.queue).2
    fired := s.fired ++ (fireDue limit s.queue).1 }

/-- An event on the UI timeline: `input t` is a keystroke or paste handled
by `_on_input_change` at time `t`; `manual t` is a direct `translate()`
call (button press or Ctrl+Enter) at time `t`. -/
inductive UIEvent where
  | input : ℚ → UIEvent
  | manual : ℚ → UIEvent
  deriving DecidableEq, Repr

def UIEvent.time : UIEvent → ℚ
  | .input t => t
  | .manual t => t

/-- The quiet period `self.auto_translate_delay` (line 139 of `main.py`). -/
def auto_translate_delay : ℚ := 650

/-- One UI event, after running all callbacks due by its time.
For `input t`, `_on_input_change` (lines 527-531 of `main.py`) cancels the
callback named by `self.typing_job` if the handle is set, then schedules
`self.translate` `delay` later and stores the new handle. For `manual t`,
`translate` (lines 418-433) runs at once and ends with
`self.typing_job = None` without any `after_cancel`, leaving a previously
scheduled callback live in the queue. -/
def stepEvent (delay : ℚ) (s : SchedState) (e : UIEvent) : SchedState :=
  match e with
  | .input t =>
      { typingJob := some (t + delay)
        queue := (match (fireAllDue t s).typingJob with
          | some ft => (fireAllDue t s).queue.erase ft
          | none => (fireAllDue t s).queue) ++ [t + delay]
        fired := (fireAllDue t s).fired }
  | .manual t =>
      { typingJob := none
        queue := (fireAllDue t s).queue
        fired := (fireAllDue t s).fired ++ [t] }

/-- Run a time-ordered list of UI events from the idle state, then let the
event loop drain: every still-scheduled callback fires at its own time. -/
def runEvents (delay : ℚ) (es : List UIEvent) : SchedState :=
  { typingJob := none
    queue := []
    fired := (es.foldl (stepEvent delay) ⟨none, [], []⟩).fired ++
      (es.foldl (stepEvent delay) ⟨none, [], []⟩).queue }

/-- The time of the last event of a burst starting at `t`. -/
def lastTime (t : ℚ) : List ℚ → ℚ
  | [] => t
  | t' :: rest => lastTime t' rest

theorem debounce_burst_aux (delay : ℚ) :
    ∀ (rest : List ℚ) (t : ℚ) (f : List ℚ),
      List.Chain (fun a b => a < b ∧ b < a + delay) t rest →
      (rest.map UIEvent.input).foldl (stepEvent delay)
          ⟨some (t + delay), [t + delay], f⟩ =
        ⟨some (lastTime t rest + delay), [lastTime t rest + delay], f⟩ := by
  intro rest
  induction rest with
  | nil => intro t f _; rfl
  | cons t' rest' ih =>
      intro t f hchain
      cases hchain with
      | cons hR hchain' =>
          rw [List.map_cons, List.foldl_cons]
          have hstep : stepEvent delay ⟨some (t + delay), [t + delay], f⟩
              (UIEvent.input t') = ⟨some (t' + delay), [t' + delay], f⟩ := by
            simp [stepEvent, fireAllDue, fireDue, if_neg (not_le.mpr hR.2),
              List.erase_cons_head]
          rw [hstep]
          exact ih t' f hchain'

/-- C9: a nonempty burst of input events in which each event arrives after
the previous one but sooner than the quiet period produces exactly one
translation trigger, fired one quiet period after the last event of the
burst: each event cancels the previously scheduled not-yet-fired callback
and reschedules. -/
theorem debounce_single_trigger (delay t : ℚ) (rest : List ℚ)
    (hchain : List.Chain (fun a b => a < b ∧ b < a + delay) t rest) :
    (runEvents delay ((t :: rest).map UIEvent.input)).fired =
      [lastTime t rest + delay] := by
  unfold runEvents
  rw [List.map_cons, List.foldl_cons]
  have hfirst : stepEvent delay ⟨none, [], []⟩ (UIEvent.input t) =
      ⟨some (t + delay), [t + delay], []⟩ := by
    simp [stepEvent, fireAllDue, fireDue]
  rw [hfirst, debounce_burst_aux delay rest t [] hchain]
  rfl

/-- Witness for C9: the burst `0, 1, 2` with the code's quiet period `650`
collapses to the single trigger at `652`. -/
theorem debounce_single_trigger_witness :
    List.Chain (fun a b => a < b ∧ b < a + (650 : ℚ)) 0 [1, 2] ∧
    (runEvents 650 (((0 : ℚ) :: [1, 2]).map UIEvent.input)).fired =
      [lastTime 0 [1, 2] + 650] :=
  ⟨by norm_num, debounce_single_trigger 650 0 [1, 2] (by norm_num)⟩

/-- C10: a direct `translate()` call while a debounce callback is pending
clears the stored handle without cancelling the scheduled callback: after
the manual call the handle is `None` yet the callback is still queued, and
the run fires two translations of the same input, the manual one at `t2`
and the debounced one at `t1 + delay`. -/
theorem manual_translate_duplicate (delay t1 t2 : ℚ)
    (h1 : t1 < t2) (h2 : t2 < t1 + delay) :
    (List.foldl (stepEvent delay) ⟨none, [], []⟩
        [UIEvent.input t1, UIEvent.manual t2]).typingJob = none ∧
    (List.foldl (stepEvent delay) ⟨none, [], []⟩
        [UIEvent.input t1, UIEvent.manual t2]).queue = [t1 + delay] ∧
    (runEvents delay [UIEvent.input t1, UIEvent.manual t2]).fired =
      [t2, t1 + delay] := by
  have hfirst : stepEvent delay ⟨none, [], []⟩ (UIEvent.input t1) =
      ⟨some (t1 + delay), [t1 + delay], []⟩ := by
    simp [stepEvent, fireAllDue, fireDue]
  have hsecond : stepEvent delay ⟨some (t1 + delay), [t1 + delay], []⟩
      (UIEvent.manual t2) = ⟨none, [t1 + delay], [t2]⟩ := by
    simp [stepEvent, fireAllDue, fireDue, if_neg (not_le.mpr h2)]
  refine ⟨?_, ?_, ?_⟩
  · rw [List.foldl_cons, hfirst, List.foldl_cons, hsecond]
    rfl
  · rw [List.foldl_cons, hfirst, List.foldl_cons, hsecond]
    rfl
  · unfold runEvents
    rw [List.foldl_cons, hfirst, List.foldl_cons, hsecond]
    rfl

/-- Witness for C10: with the code's quiet period `650`, an input event at
time `0` followed by a manual translate at time `1`. -/
theorem manual_translate_duplicate_witness :
    ((0 : ℚ) < 1 ∧ (1 : ℚ) < 0 + 650) ∧
    ((List.foldl (stepEvent 650) ⟨none, [], []⟩
        [UIEvent.input 0, UIEvent.manual 1]).typingJob = none ∧
      (List.foldl (stepEvent 650) ⟨none, [], []⟩
        [UIEvent.input 0, UIEvent.manual 1]).queue = [0 + 650] ∧
      (runEvents 650 [UIEvent.input 0, UIEvent.manual 1]).fired =
        [1, 0 + 650]) :=
  ⟨by norm_num,
    manual_translate_duplicate 650 0 1 (by norm_num) (by norm_num)⟩
